import Mathlib

/-!
Verification development for the `dupless` duplicate-file remover
(`src/main.cpp`).  The C++ program is shallowly embedded: pure helper
functions become Lean functions on `Nat`/`List`/`String`, the stateful
scan/report/delete pipeline becomes explicit accumulator passing, and
fallible filesystem operations are modelled by explicit outcome values.
-/

namespace Dupless

/-! ### Decimal rendering, `formatSize` (main.cpp lines 19-34)

`formatSize` calls `std::to_string(static_cast<double>(bytes) / unit)`
and keeps the first four characters (`substr(0, 4)`).  The modelled
floating-point pipeline, step by step:
* `static_cast<double>(bytes)` rounds the 64-bit integer to the nearest
  `double` (round half to even).  A `double` carries 53 significand
  bits, so byte counts below `2^53` convert exactly and larger ones
  round to the nearest multiple of `2^(bits - 53)` (`toDouble` below);
  no overflow is possible from a 64-bit value.
* dividing that `double` by the power-of-two unit (1024, 1024², 1024³)
  only shifts the exponent, hence is exact: the quotient equals the
  rational `toDouble bytes / unit`.
* `std::to_string(double)` formats with `%f`: fixed notation, exactly
  six digits after the decimal point, correctly rounded (ties to even).
We model the whole chain by integer arithmetic on
`toDouble bytes * 10^6 / unit`.
-/

/-- One decimal digit character, `0 ≤ n < 10 → '0'..'9'`. -/
def digitChar (n : Nat) : Char := Char.ofNat (48 + n)

/-- Fuel-driven decimal rendering of a natural number, most significant
digit first.  The fuel only has to exceed the number of digits. -/
def natDigitsAux : Nat → Nat → List Char
  | 0, _ => []
  | fuel + 1, n =>
    if n < 10 then [digitChar n]
    else natDigitsAux fuel (n / 10) ++ [digitChar (n % 10)]

/-- Decimal digit characters of `n`, as produced by `std::to_string` on
an integer value. -/
def natDigits (n : Nat) : List Char := natDigitsAux (n + 1) n

/-- Reads a digit string back as a number (only used in statements, to
express that a rendered string really displays a given count). -/
def decodeDigits (l : List Char) : Nat :=
  l.foldl (fun a c => a * 10 + (c.toNat - 48)) 0

/-- The six digits after the decimal point of `%f` output: the
fractional part `f < 10^6`, zero-padded on the left to six digits. -/
def pad6 (f : Nat) : List Char :=
  List.replicate (6 - (natDigits f).length) '0' ++ natDigits f

/-- Quotient `num / den` rounded to the nearest integer, ties to even — the
correct rounding `printf("%f")` applies at the sixth decimal place. -/
def roundHalfEven (num den : Nat) : Nat :=
  let q := num / den
  let r := num % den
  if 2 * r < den then q
  else if den < 2 * r then q + 1
  else if q % 2 = 0 then q else q + 1

/-- Fuel-driven bit length of a natural number (`bitLen 0 = 0`,
otherwise position of the highest set bit plus one).  The fuel only has
to exceed the bit count. -/
def bitLenAux : Nat → Nat → Nat
  | 0, _ => 0
  | fuel + 1, n => if n = 0 then 0 else bitLenAux fuel (n / 2) + 1

/-- Bit length of a natural number. -/
def bitLen (n : Nat) : Nat := bitLenAux (n + 1) n

/-- Model of `static_cast<double>(n)` for an unsigned 64-bit `n`, as a
natural number: values below `2^53` are exactly representable; a wider
value is rounded (half to even) to the nearest multiple of its unit in
the last place `2^(bitLen n - 53)`.  A carry into the next binade stays
representable, and a 64-bit value cannot overflow the exponent range,
so the result is always the exact value of the `double`. -/
def toDouble (n : Nat) : Nat :=
  if n < 2 ^ 53 then n
  else roundHalfEven n (2 ^ (bitLen n - 53)) * 2 ^ (bitLen n - 53)

/-- Value `double(bytes) / u` scaled by `10^6` and rounded: the integer
whose decimal digits are exactly the digits
`std::to_string(static_cast<double>(bytes) / u)` prints (integer part,
then six fractional digits).  The division by the power-of-two `u` is
exact on `double`s, so the only two roundings are the integer-to-double
conversion (`toDouble`) and the six-decimal formatting. -/
def scaled6 (bytes u : Nat) : Nat := roundHalfEven (toDouble bytes * 1000000) u

/-- The character sequence of `std::to_string` on the scaled value:
integer part, `'.'`, six fractional digits. -/
def sixDecChars (N : Nat) : List Char :=
  natDigits (N / 1000000) ++ '.' :: pad6 (N % 1000000)

/-- Constant `const uint64_t KB = 1024;`. -/
def KB : Nat := 1024

/-- Constant `const uint64_t MB = 1024 * KB;`. -/
def MB : Nat := 1024 * KB

/-- Constant `const uint64_t GB = 1024 * MB;`. -/
def GB : Nat := 1024 * MB

/-- Function `formatSize` (main.cpp lines 19-34): pick the unit by 1024-based
thresholds, render `bytes/unit` with `std::to_string` and keep the
first four characters (`substr(0, 4)` — all characters involved are
ASCII, so `substr` counts characters). Below 1024 the raw byte count
is printed. -/
def formatSize (bytes : Nat) : String :=
  if GB ≤ bytes then String.mk ((sixDecChars (scaled6 bytes GB)).take 4) ++ " GB"
  else if MB ≤ bytes then String.mk ((sixDecChars (scaled6 bytes MB)).take 4) ++ " MB"
  else if KB ≤ bytes then String.mk ((sixDecChars (scaled6 bytes KB)).take 4) ++ " KB"
  else String.mk (natDigits bytes) ++ " Bytes"

/-! ### SHA-256 (Hasher)

Modelled from the spec: `sha256.h` ("the provided SHA256 implementation",
main.cpp line 1) is not part of `src/`.  The spec describes the Hasher
as producing "a deterministic fixed-length digest (hexadecimal string)
over the entire content", fed incrementally by `add` calls and finished
by `getHash`.  We implement standard SHA-256 (FIPS 180-4) on `Nat`
values, with 32-bit words kept below `2^32` by explicit `% 2^32`.
Bytes are naturals below 256.  The streaming state buffers bytes and
compresses each full 64-byte block, exactly as an incremental SHA-256
implementation does.
-/

/-- The word modulus `2^32`. -/
def w32 : Nat := 4294967296

/-- Right rotation of a 32-bit word. -/
def rotr (x n : Nat) : Nat := ((x >>> n) ||| (x <<< (32 - n))) % w32

/-- Schedule function σ0. -/
def smallSigma0 (x : Nat) : Nat := (rotr x 7) ^^^ (rotr x 18) ^^^ (x >>> 3)

/-- Schedule function σ1. -/
def smallSigma1 (x : Nat) : Nat := (rotr x 17) ^^^ (rotr x 19) ^^^ (x >>> 10)

/-- Round function Σ0. -/
def bigSigma0 (x : Nat) : Nat := (rotr x 2) ^^^ (rotr x 13) ^^^ (rotr x 22)

/-- Round function Σ1. -/
def bigSigma1 (x : Nat) : Nat := (rotr x 6) ^^^ (rotr x 11) ^^^ (rotr x 25)

/-- Choice function `Ch(e,f,g)`; bitwise NOT on 32 bits is XOR with
`2^32 - 1`. -/
def chFn (e f g : Nat) : Nat := (e &&& f) ^^^ ((e ^^^ 4294967295) &&& g)

/-- Majority function `Maj(a,b,c)`. -/
def majFn (a b c : Nat) : Nat := (a &&& b) ^^^ (a &&& c) ^^^ (b &&& c)

/-- The 64 SHA-256 round constants (decimal values of the FIPS 180-4
table 0x428a2f98, 0x71374491, …). -/
def K : List Nat :=
  [1116352408, 1899447441, 3049323471, 3921009573, 961987163, 1508970993,
   2453635748, 2870763221, 3624381080, 310598401, 607225278, 1426881987,
   1925078388, 2162078206, 2614888103, 3248222580, 3835390401, 4022224774,
   264347078, 604807628, 770255983, 1249150122, 1555081692, 1996064986,
   2554220882, 2821834349, 2952996808, 3210313671, 3336571891, 3584528711,
   113926993, 338241895, 666307205, 773529912, 1294757372, 1396182291,
   1695183700, 1986661051, 2177026350, 2456956037, 2730485921, 2820302411,
   3259730800, 3345764771, 3516065817, 3600352804, 4094571909, 275423344,
   430227734, 506948616, 659060556, 883997877, 958139571, 1322822218,
   1537002063, 1747873779, 1955562222, 2024104815, 2227730452, 2361852424,
   2428436474, 2756734187, 3204031479, 3329325298]

/-- The initial hash value H⁽⁰⁾ (decimal values of 0x6a09e667,
0xbb67ae85, …). -/
def initH : List Nat :=
  [1779033703, 3144134277, 1013904242, 2773480762,
   1359893119, 2600822924, 528734635, 1541459225]

/-- Big-endian packing of bytes into 32-bit words. -/
def toWords : List Nat → List Nat
  | b0 :: b1 :: b2 :: b3 :: rest =>
    (((b0 * 256 + b1) * 256 + b2) * 256 + b3) :: toWords rest
  | _ => []

/-- Extends the 16-word schedule to 64 words (`k` steps remaining). -/
def extendLoop : Nat → List Nat → List Nat
  | 0, w => w
  | k + 1, w =>
    let i := w.length
    extendLoop k
      (w ++ [(w.getD (i - 16) 0 + smallSigma0 (w.getD (i - 15) 0)
              + w.getD (i - 7) 0 + smallSigma1 (w.getD (i - 2) 0)) % w32])

/-- The 64-word message schedule of one 64-byte block. -/
def msgSchedule (block : List Nat) : List Nat := extendLoop 48 (toWords block)

/-- One SHA-256 round on the register file `[a,b,c,d,e,f,g,h]`. -/
def roundStep (r : List Nat) (kw : Nat × Nat) : List Nat :=
  match r with
  | [a, b, c, d, e, f, g, h] =>
    let t1 := (h + bigSigma1 e + chFn e f g + kw.1 + kw.2) % w32
    let t2 := (bigSigma0 a + majFn a b c) % w32
    [(t1 + t2) % w32, a, b, c, (d + t1) % w32, e, f, g]
  | _ => r

/-- The SHA-256 compression function: one 64-byte block updates the
eight-word hash value. -/
def compress (hs : List Nat) (block : List Nat) : List Nat :=
  let r := (List.zip K (msgSchedule block)).foldl roundStep hs
  List.zipWith (fun x y => (x + y) % w32) hs r

/-- Streaming SHA-256 state: current hash value, bytes buffered towards
the next 64-byte block, and the total number of bytes consumed. -/
structure SHA256State where
  hs : List Nat
  pending : List Nat
  len : Nat
deriving DecidableEq

/-- The fresh state of a `SHA256` object. -/
def initState : SHA256State := ⟨initH, [], 0⟩

/-- Feeds one byte to the streaming state, compressing when a 64-byte
block is complete. -/
def addByte (st : SHA256State) (b : Nat) : SHA256State :=
  let p := st.pending ++ [b]
  if p.length = 64 then ⟨compress st.hs p, [], st.len + 1⟩
  else ⟨st.hs, p, st.len + 1⟩

/-- Method `sha256.add(buffer, n)`: feeds a byte sequence to the state. -/
def add (st : SHA256State) (bs : List Nat) : SHA256State := bs.foldl addByte st

/-- Eight-byte big-endian encoding of the message bit length. -/
def bigEndian8 (n : Nat) : List Nat :=
  (List.range 8).map (fun i => n / 256 ^ (7 - i) % 256)

/-- The padded trailer is at most two blocks long. -/
def finalBlocks (msg : List Nat) : List (List Nat) :=
  if msg.length ≤ 64 then [msg] else [msg.take 64, msg.drop 64]

/-- Lowercase hexadecimal digit. -/
def hexDigitChar (n : Nat) : Char :=
  if n < 10 then Char.ofNat (48 + n) else Char.ofNat (87 + n)

/-- Eight lowercase hex digits of a 32-bit word, most significant
first. -/
def hexWord (x : Nat) : List Char :=
  (List.range 8).map (fun i => hexDigitChar (x / 16 ^ (7 - i) % 16))

/-- Method `sha256.getHash()`: pad (0x80, zeros, 8-byte big-endian bit
length), compress the final block(s), and print the hash value as a
64-character lowercase hex string. -/
def getHash (st : SHA256State) : String :=
  let padZeros := (56 + 64 - (st.pending.length + 1) % 64) % 64
  let msg := st.pending ++ 0x80 :: (List.replicate padZeros 0 ++ bigEndian8 (st.len * 8))
  String.mk ((((finalBlocks msg).foldl compress st.hs).map hexWord).flatten)

/-- The digest of a whole byte sequence hashed in one contiguous `add`
call — the "single contiguous read" reference the spec compares the
chunked loop against. -/
def sha256hex (bs : List Nat) : String := getHash (add initState bs)

/-! ### `calculateFileHash` (main.cpp lines 43-67) -/

/-- The `while (file.read(buffer, 131072))` loop: every iteration that
reads a full 128 KiB chunk feeds it to the hash state; the final
partial chunk (`file.gcount() > 0`) is fed after the loop.  The loop
consumes 131072 bytes per step, so fuel `length + 1` never runs out
(the 0-fuel branch is unreachable). -/
def readLoopAux : Nat → SHA256State → List Nat → SHA256State
  | 0, st, _ => st
  | fuel + 1, st, content =>
    if 131072 ≤ content.length then
      readLoopAux fuel (add st (content.take 131072)) (content.drop 131072)
    else if content.length ≠ 0 then add st content
    else st

/-- The chunked-read hashing loop of `calculateFileHash`. -/
def readLoop (st : SHA256State) (content : List Nat) : SHA256State :=
  readLoopAux (content.length + 1) st content

/-- Function `calculateFileHash` (main.cpp lines 43-67).  Flag `opened` models
`file.is_open()` after the constructor, `bad` models `file.bad()`
after the read loop (a stream-corruption error); on either failure the
empty-string sentinel is returned, otherwise the digest of the chunked
read. -/
def calculateFileHash (opened : Bool) (content : List Nat) (bad : Bool) : String :=
  if opened then
    if bad then "" else getHash (readLoop initState content)
  else ""

/-! ### Scanner/Grouper (main.cpp lines 74-106)

Phase 1 walks the directory tree; for each regular file it computes
`calculateFileHash` and, when the hash is non-empty, appends the path
to `hashToPaths[hash]`.  A discovered filesystem entry is modelled by
its path together with the observable behaviour of the filesystem
calls made on it (`is_regular_file`, opening, content, stream state).
`std::map<std::string, std::vector<fs::path>>` keeps its keys in
strictly increasing byte-lexicographic order; we model it as a sorted
association list, with `insertMap` performing the `operator[]` +
`push_back` update. -/

structure FsEntry where
  path : String
  isRegular : Bool
  openOk : Bool
  content : List Nat
  readBad : Bool
deriving DecidableEq

/-- The hash the scan computes for an entry. -/
def entryHash (e : FsEntry) : String := calculateFileHash e.openOk e.content e.readBad

/-- Update `hashToPaths[h].push_back(p)` on a key-sorted association list:
find (or create, in key order) the entry of key `h` and append `p` to
its vector. -/
def insertMap : List (String × List String) → String → String → List (String × List String)
  | [], h, p => [(h, [p])]
  | (k, ps) :: rest, h, p =>
    if h < k then (h, [p]) :: (k, ps) :: rest
    else if h = k then (k, ps ++ [p]) :: rest
    else (k, ps) :: insertMap rest h p

/-- One iteration of the scan loop (main.cpp lines 89-102): skip
non-regular entries, hash, skip empty-sentinel hashes, record the
path. -/
def scanStep (m : List (String × List String)) (e : FsEntry) : List (String × List String) :=
  if e.isRegular then
    if entryHash e = "" then m else insertMap m (entryHash e) e.path
  else m

/-- The `hashToPaths` map after scanning `entries` in discovery
order. -/
def hashToPaths (entries : List FsEntry) : List (String × List String) :=
  entries.foldl scanStep []

/-- Vector stored under key `h` (empty when `h` is absent), i.e. what
iterating the `std::map` yields for that key. -/
def lookupMap : List (String × List String) → String → List String
  | [], _ => []
  | (k, ps) :: rest, h => if h = k then ps else lookupMap rest h

/-- All paths stored in the map, in iteration order. -/
def pathsOfMap (m : List (String × List String)) : List String :=
  (m.map Prod.snd).flatten

/-- Keys strictly increasing — the `std::map` ordering invariant. -/
def sortedMap (m : List (String × List String)) : Prop :=
  m.Pairwise (fun a b => a.1 < b.1)

/-- The Boolean test "`e` was recorded under key `h`" (regular file,
hash not the error sentinel, hash equal to `h`). -/
def hashMatches (h : String) (e : FsEntry) : Bool :=
  e.isRegular && !(entryHash e == "") && (entryHash e == h)

/-- The Boolean test "`e` was recorded at all". -/
def scanKept (e : FsEntry) : Bool := e.isRegular && !(entryHash e == "")

/-- The discovery-ordered paths of the regular empty files that were
hashed successfully (claim C9). -/
def emptyRegFiles (entries : List FsEntry) : List String :=
  (entries.filter (fun e => e.isRegular && e.openOk && !e.readBad && e.content.isEmpty)).map
    FsEntry.path

/-! ### Reporter (main.cpp lines 112-154) -/

/-- Everything phase 2 accumulates: the deletion list `filesToDelete`,
the running `totalDuplicateSize`, the size-query warnings printed to
stderr, and the duplicate groups printed to stdout (in print order). -/
structure Report where
  files : List String
  total : Nat
  warnings : List String
  groups : List (String × List String)
deriving DecidableEq

/-- Inner loop body (main.cpp lines 128-139): the duplicate is pushed
onto the deletion list, then `fs::file_size` is attempted; on success
the size is added to the total, on failure a warning is recorded.
`sz p = none` models a throwing `fs::file_size(p)`. -/
def dupStep (sz : String → Option Nat) (a : Report) (p : String) : Report :=
  match sz p with
  | some s => ⟨a.files ++ [p], a.total + s, a.warnings, a.groups⟩
  | none => ⟨a.files ++ [p], a.total, a.warnings ++ [p], a.groups⟩

/-- Outer loop body (main.cpp lines 117-141): groups of size > 1 are
reported (keeper = front of the vector) and their remaining members
(`i = 1` onwards) processed by the inner loop. -/
def groupStep (sz : String → Option Nat) (a : Report) (g : String × List String) : Report :=
  if 1 < g.2.length then
    (g.2.drop 1).foldl (dupStep sz) ⟨a.files, a.total, a.warnings, a.groups ++ [g]⟩
  else a

/-- Phase 2 over the whole map. -/
def reportPhase (m : List (String × List String)) (sz : String → Option Nat) : Report :=
  m.foldl (groupStep sz) ⟨[], 0, [], []⟩

/-- The non-keeper members contributed by each group, flattened in map
order — what `filesToDelete` ends up holding. -/
def dupsList (m : List (String × List String)) : List String :=
  m.flatMap (fun g => if 1 < g.2.length then g.2.drop 1 else [])

/-- Boolean duplicate-group test (`paths.size() > 1`). -/
def isDupGroup (g : String × List String) : Bool := decide (1 < g.2.length)

/-! ### Confirmation and deletion (main.cpp lines 156-174) -/

/-- Outcome of `fs::remove(p)`: the file was deleted (`remove` returned
`true`), the file did not exist (`remove` returned `false` — not an
error), or a `filesystem_error` was thrown. -/
inductive RemoveOutcome where
  | removed
  | notExisted
  | error
deriving DecidableEq

/-- Test `response.size() == 1 && (response[0] == 'Y' || response[0] == 'y')`
(main.cpp line 159), on the token `std::cin >> response` read. -/
def confirmed (r : String) : Bool :=
  match r.data with
  | [c] => c == 'Y' || c == 'y'
  | _ => false

/-- The `deleteCount` update for one file: a thrown `filesystem_error` is
caught and skips the increment; any completed `fs::remove` call counts
(the Boolean result of `fs::remove` is ignored by the code). -/
def deleteStep (rm : String → RemoveOutcome) (c : Nat) (p : String) : Nat :=
  match rm p with
  | RemoveOutcome.error => c
  | _ => c + 1

/-- The final `deleteCount` after the batch loop. -/
def batchDeleteCount (files : List String) (rm : String → RemoveOutcome) : Nat :=
  files.foldl (deleteStep rm) 0

/-- The sequence of paths on which `fs::remove` is invoked: the whole
deletion list when confirmed, nothing otherwise. -/
def attemptedRemovals (files : List String) (r : String) : List String :=
  if confirmed r then files else []

/-- The printed final tally (`deleteCount`), or `none` when the batch
was skipped. -/
def finalTally (files : List String) (r : String) (rm : String → RemoveOutcome) : Option Nat :=
  if confirmed r then some (batchDeleteCount files rm) else none

/-- The "Deletion skipped for all N identified files" count, or `none`
when the batch ran. -/
def untouchedReport (files : List String) (r : String) : Option Nat :=
  if confirmed r then none else some files.length

/-- Predicate holding when `fs::remove` completed without throwing (what the code counts). -/
def removeOk (rm : String → RemoveOutcome) (p : String) : Bool :=
  match rm p with
  | RemoveOutcome.error => false
  | _ => true

/-- Predicate holding when `fs::remove` actually deleted a file (returned `true`). -/
def isRemoved : RemoveOutcome → Bool
  | RemoveOutcome.removed => true
  | _ => false

/-- How many of the given files are actually removed from the
filesystem when `fs::remove` is called on each. -/
def actuallyRemoved (files : List String) (rm : String → RemoveOutcome) : Nat :=
  (files.filter (fun p => isRemoved (rm p))).length

/-! ### `main` and whole-run control flow (main.cpp lines 74-106 and
177-197) -/

/-- What a completed `findAndRemoveDuplicates` call did. -/
inductive RunOutcome where
  | scanAborted (msg : String)
  | noDuplicates
  | completed (rep : Report) (tally : Option Nat) (untouched : Option Nat)
deriving DecidableEq

/-- Function `findAndRemoveDuplicates`: a `filesystem_error` thrown by the
recursive traversal aborts the whole function early (lines 103-106,
the partial map is discarded and no report/prompt happens); otherwise
the scan result is grouped and reported, and with no duplicate group
the function returns before any prompt (lines 143-146). -/
def findAndRemoveRun (scanRes : Except String (List FsEntry)) (sz : String → Option Nat)
    (resp : String) (rm : String → RemoveOutcome) : RunOutcome :=
  match scanRes with
  | Except.error e => RunOutcome.scanAborted e
  | Except.ok entries =>
    let rep := reportPhase (hashToPaths entries) sz
    if rep.groups = [] then RunOutcome.noDuplicates
    else RunOutcome.completed rep (finalTally rep.files resp rm) (untouchedReport rep.files resp)

/-- Function `main` (lines 177-197): argument-count and path validation return
exit code 1; otherwise `findAndRemoveDuplicates` runs (a `void` call —
its outcome cannot influence the exit code) and `main` returns 0. -/
def runProgram (argCount : Nat) (pathExists isDir : Bool)
    (scanRes : Except String (List FsEntry)) (sz : String → Option Nat)
    (resp : String) (rm : String → RemoveOutcome) : Nat × Option RunOutcome :=
  if argCount ≠ 2 then (1, none)
  else if !pathExists then (1, none)
  else if !isDir then (1, none)
  else (0, some (findAndRemoveRun scanRes sz resp rm))

/-! ### Lemmas: decimal rendering -/

theorem natDigitsAux_congr : ∀ (n f₁ f₂ : Nat), n < f₁ → n < f₂ →
    natDigitsAux f₁ n = natDigitsAux f₂ n := by
  intro n
  induction n using Nat.strong_induction_on with
  | _ n ih =>
    intro f₁ f₂ h₁ h₂
    cases f₁ with
    | zero => omega
    | succ f₁ =>
      cases f₂ with
      | zero => omega
      | succ f₂ =>
        by_cases h10 : n < 10
        · simp [natDigitsAux, h10]
        · have hdlt : n / 10 < n := Nat.div_lt_self (by omega) (by omega)
          simp only [natDigitsAux, h10, if_false]
          rw [ih (n / 10) hdlt f₁ f₂ (lt_of_lt_of_le hdlt (by omega))
            (lt_of_lt_of_le hdlt (by omega))]

theorem natDigits_of_lt {n : Nat} (h : n < 10) : natDigits n = [digitChar n] := by
  simp [natDigits, natDigitsAux, h]

theorem natDigits_of_ge {n : Nat} (h : 10 ≤ n) :
    natDigits n = natDigits (n / 10) ++ [digitChar (n % 10)] := by
  have hdlt : n / 10 < n := Nat.div_lt_self (by omega) (by omega)
  have h1 : natDigitsAux (n + 1) n = natDigitsAux n (n / 10) ++ [digitChar (n % 10)] := by
    simp [natDigitsAux, Nat.not_lt.mpr h]
  rw [natDigits, h1, natDigits, natDigitsAux_congr (n / 10) n (n / 10 + 1) hdlt (by omega)]

theorem digitChar_isDigit {n : Nat} (h : n < 10) : (digitChar n).isDigit = true := by
  interval_cases n <;> decide

theorem digitChar_toNat {n : Nat} (h : n < 10) : (digitChar n).toNat = 48 + n := by
  interval_cases n <;> decide

theorem mem_natDigits_isDigit : ∀ (n : Nat) (c : Char), c ∈ natDigits n → c.isDigit = true := by
  intro n
  induction n using Nat.strong_induction_on with
  | _ n ih =>
    intro c hc
    by_cases h10 : n < 10
    · rw [natDigits_of_lt h10] at hc
      simp only [List.mem_singleton] at hc
      subst hc
      exact digitChar_isDigit h10
    · rw [natDigits_of_ge (by omega)] at hc
      rcases List.mem_append.mp hc with h | h
      · exact ih (n / 10) (Nat.div_lt_self (by omega) (by omega)) c h
      · simp only [List.mem_singleton] at h
        subst h
        exact digitChar_isDigit (Nat.mod_lt _ (by omega))

theorem natDigits_length_of_lt {n : Nat} (h : n < 10) : (natDigits n).length = 1 := by
  rw [natDigits_of_lt h]
  rfl

theorem natDigits_length_step {n : Nat} (h : 10 ≤ n) :
    (natDigits n).length = (natDigits (n / 10)).length + 1 := by
  rw [natDigits_of_ge h, List.length_append]
  rfl

theorem natDigits_length_two {n : Nat} (h1 : 10 ≤ n) (h2 : n < 100) :
    (natDigits n).length = 2 := by
  rw [natDigits_length_step h1, natDigits_length_of_lt (by omega)]

theorem natDigits_length_three {n : Nat} (h1 : 100 ≤ n) (h2 : n < 1000) :
    (natDigits n).length = 3 := by
  rw [natDigits_length_step (by omega), natDigits_length_two (by omega) (by omega)]

theorem natDigits_length_ge_three : ∀ (n : Nat), 100 ≤ n → 3 ≤ (natDigits n).length := by
  intro n
  induction n using Nat.strong_induction_on with
  | _ n ih =>
    intro h
    by_cases h3 : n < 1000
    · rw [natDigits_length_three h h3]
    · rw [natDigits_length_step (by omega)]
      have := ih (n / 10) (Nat.div_lt_self (by omega) (by omega)) (by omega)
      omega

theorem natDigits_length_ge_four {n : Nat} (h : 1000 ≤ n) : 4 ≤ (natDigits n).length := by
  rw [natDigits_length_step (by omega)]
  have := natDigits_length_ge_three (n / 10) (by omega)
  omega

theorem decodeDigits_append_one (l : List Char) (c : Char) :
    decodeDigits (l ++ [c]) = decodeDigits l * 10 + (c.toNat - 48) := by
  simp [decodeDigits, List.foldl_append]

theorem decodeDigits_natDigits : ∀ (n : Nat), decodeDigits (natDigits n) = n := by
  intro n
  induction n using Nat.strong_induction_on with
  | _ n ih =>
    by_cases h10 : n < 10
    · rw [natDigits_of_lt h10]
      simp [decodeDigits, digitChar_toNat h10]
    · rw [natDigits_of_ge (by omega), decodeDigits_append_one,
        ih (n / 10) (Nat.div_lt_self (by omega) (by omega)),
        digitChar_toNat (Nat.mod_lt _ (by omega))]
      omega

theorem natDigits_no_dot {n : Nat} : '.' ∉ natDigits n := by
  intro h
  have := mem_natDigits_isDigit n '.' h
  simp at this

theorem pad6_length (f : Nat) : 6 ≤ (pad6 f).length := by
  simp only [pad6, List.length_append, List.length_replicate]
  omega

theorem mem_pad6_isDigit {f : Nat} {c : Char} (h : c ∈ pad6 f) : c.isDigit = true := by
  rcases List.mem_append.mp h with h | h
  · rw [List.eq_of_mem_replicate h]
    decide
  · exact mem_natDigits_isDigit f c h

theorem filter_isDigit_take_pad6 (f k : Nat) :
    ((pad6 f).take k).filter (fun c => c.isDigit) = (pad6 f).take k := by
  exact List.filter_eq_self.mpr fun c hc => mem_pad6_isDigit (List.take_subset k _ hc)

theorem length_take_pad6 {f k : Nat} (h : k ≤ 6) : ((pad6 f).take k).length = k := by
  rw [List.length_take]
  exact min_eq_left (le_trans h (pad6_length f))

/-- The four retained characters of the six-decimal rendering: always
four characters, of which three are digits when the (rounded) integer
part stays below 1000 and four otherwise. -/
theorem sixDec_take4 (N : Nat) :
    ((sixDecChars N).take 4).length = 4
    ∧ (((sixDecChars N).take 4).filter (fun c => c.isDigit)).length
        = if N / 1000000 < 1000 then 3 else 4 := by
  have hdot : ('.' : Char).isDigit = false := by decide
  by_cases h1 : N / 1000000 < 10
  · rw [show sixDecChars N = digitChar (N / 1000000) :: '.' :: pad6 (N % 1000000) by
      rw [sixDecChars, natDigits_of_lt h1]; rfl]
    simp only [List.take_succ_cons, List.filter_cons, digitChar_isDigit h1, hdot,
      List.length_cons, if_true, if_false, Bool.false_eq_true, filter_isDigit_take_pad6]
    simp [show N / 1000000 < 1000 by omega]
    have := pad6_length (N % 1000000)
    omega
  · by_cases h2 : N / 1000000 < 100
    · rw [show sixDecChars N
          = digitChar (N / 1000000 / 10) :: digitChar (N / 1000000 % 10)
            :: '.' :: pad6 (N % 1000000) by
        rw [sixDecChars, natDigits_of_ge (by omega), natDigits_of_lt (by omega)]; rfl]
      simp only [List.take_succ_cons, List.filter_cons, digitChar_isDigit (by omega : N / 1000000 / 10 < 10),
        digitChar_isDigit (Nat.mod_lt _ (by omega) : N / 1000000 % 10 < 10), hdot,
        List.length_cons, if_true, if_false, Bool.false_eq_true, filter_isDigit_take_pad6]
      simp [show N / 1000000 < 1000 by omega]
      have := pad6_length (N % 1000000)
      omega
    · by_cases h3 : N / 1000000 < 1000
      · rw [show sixDecChars N
            = digitChar (N / 1000000 / 10 / 10) :: digitChar (N / 1000000 / 10 % 10)
              :: digitChar (N / 1000000 % 10) :: '.' :: pad6 (N % 1000000) by
          rw [sixDecChars, natDigits_of_ge (by omega), natDigits_of_ge (by omega),
            natDigits_of_lt (by omega)]; rfl]
        simp only [List.take_succ_cons, List.filter_cons,
          digitChar_isDigit (by omega : N / 1000000 / 10 / 10 < 10),
          digitChar_isDigit (Nat.mod_lt _ (by omega) : N / 1000000 / 10 % 10 < 10),
          digitChar_isDigit (Nat.mod_lt _ (by omega) : N / 1000000 % 10 < 10), hdot,
          List.length_cons, if_true, if_false, Bool.false_eq_true]
        simp [h3, List.take]
      · have h4 : 4 ≤ (natDigits (N / 1000000)).length := natDigits_length_ge_four (by omega)
        have htake : (sixDecChars N).take 4 = (natDigits (N / 1000000)).take 4 := by
          rw [sixDecChars, List.take_append_eq_append_take,
            show 4 - (natDigits (N / 1000000)).length = 0 by omega, List.take_zero,
            List.append_nil]
        rw [htake]
        have hlen : ((natDigits (N / 1000000)).take 4).length = 4 := by
          rw [List.length_take]
          omega
        constructor
        · exact hlen
        · rw [List.filter_eq_self.mpr
            (fun c hc => mem_natDigits_isDigit _ c (List.take_subset 4 _ hc)), hlen]
          simp [show ¬ N / 1000000 < 1000 by omega]

/-! ### Lemmas: the chunked read loop -/

theorem add_append (st : SHA256State) (l1 l2 : List Nat) :
    add st (l1 ++ l2) = add (add st l1) l2 :=
  List.foldl_append _ _ _ _

theorem readLoopAux_eq_add : ∀ (fuel : Nat) (st : SHA256State) (content : List Nat),
    content.length < fuel → readLoopAux fuel st content = add st content := by
  intro fuel
  induction fuel with
  | zero => intro st c h; omega
  | succ fuel ih =>
    intro st c h
    rw [readLoopAux]
    by_cases h1 : 131072 ≤ c.length
    · rw [if_pos h1, ih _ _ (by rw [List.length_drop]; omega), ← add_append,
        List.take_append_drop]
    · rw [if_neg h1]
      by_cases h2 : c.length ≠ 0
      · rw [if_pos h2]
      · rw [if_neg h2]
        have hc : c = [] := List.length_eq_zero.mp (by omega)
        subst hc
        rfl

theorem readLoop_eq_add (st : SHA256State) (content : List Nat) :
    readLoop st content = add st content :=
  readLoopAux_eq_add _ _ _ (by omega)

/-! ### Lemmas: the `std::map` model -/

theorem mem_keys_insertMap :
    ∀ (m : List (String × List String)) (h p k : String),
      k ∈ (insertMap m h p).map Prod.fst → k = h ∨ k ∈ m.map Prod.fst := by
  intro m
  induction m with
  | nil =>
    intro h p k hk
    simp [insertMap] at hk
    simp [hk]
  | cons g rest ih =>
    intro h p k hk
    obtain ⟨kg, ps⟩ := g
    by_cases h1 : h < kg
    · simp only [insertMap, if_pos h1, List.map_cons, List.mem_cons] at hk
      simp only [List.map_cons, List.mem_cons]
      tauto
    · by_cases h2 : h = kg
      · simp only [insertMap, if_neg h1, if_pos h2, List.map_cons, List.mem_cons] at hk
        simp only [List.map_cons, List.mem_cons]
        tauto
      · simp only [insertMap, if_neg h1, if_neg h2, List.map_cons, List.mem_cons] at hk
        simp only [List.map_cons, List.mem_cons]
        rcases hk with hk | hk
        · tauto
        · rcases ih h p k hk with hk | hk <;> tauto

theorem insertMap_sorted :
    ∀ (m : List (String × List String)) (h p : String),
      sortedMap m → sortedMap (insertMap m h p) := by
  intro m
  induction m with
  | nil =>
    intro h p _
    simp [insertMap, sortedMap]
  | cons g rest ih =>
    intro h p hs
    obtain ⟨kg, ps⟩ := g
    rw [sortedMap, List.pairwise_cons] at hs
    obtain ⟨hall, hrest⟩ := hs
    by_cases h1 : h < kg
    · simp only [insertMap, if_pos h1]
      rw [sortedMap, List.pairwise_cons]
      refine ⟨?_, List.pairwise_cons.mpr ⟨hall, hrest⟩⟩
      intro g' hg'
      rcases List.mem_cons.mp hg' with rfl | hg'
      · exact h1
      · exact lt_trans h1 (hall g' hg')
    · by_cases h2 : h = kg
      · simp only [insertMap, if_neg h1, if_pos h2]
        rw [sortedMap, List.pairwise_cons]
        exact ⟨hall, hrest⟩
      · simp only [insertMap, if_neg h1, if_neg h2]
        rw [sortedMap, List.pairwise_cons]
        refine ⟨?_, ih h p hrest⟩
        intro g' hg'
        rcases mem_keys_insertMap rest h p g'.1
            (List.mem_map_of_mem Prod.fst hg') with hk | hk
        · rw [hk]
          exact lt_of_le_of_ne (not_lt.mp h1) fun e => h2 e.symm
        · obtain ⟨g'', hg'', he⟩ := List.mem_map.mp hk
          rw [← he]
          exact hall g'' hg''

theorem lookupMap_of_not_mem_keys :
    ∀ (m : List (String × List String)) (h : String),
      h ∉ m.map Prod.fst → lookupMap m h = [] := by
  intro m
  induction m with
  | nil => intro h _; rfl
  | cons g rest ih =>
    intro h hh
    obtain ⟨k, ps⟩ := g
    simp only [List.map_cons, List.mem_cons] at hh
    push_neg at hh
    simp only [lookupMap, if_neg hh.1]
    exact ih h hh.2

theorem lookupMap_head_lt {k : String} {ps : List String}
    {rest : List (String × List String)} {h : String}
    (hs : sortedMap ((k, ps) :: rest)) (hlt : h < k) :
    lookupMap ((k, ps) :: rest) h = [] := by
  rw [sortedMap, List.pairwise_cons] at hs
  refine lookupMap_of_not_mem_keys _ h ?_
  simp only [List.map_cons, List.mem_cons]
  push_neg
  refine ⟨ne_of_lt hlt, ?_⟩
  intro hmem
  obtain ⟨g'', hg'', he⟩ := List.mem_map.mp hmem
  exact absurd (lt_trans hlt (hs.1 g'' hg'')) (by rw [he]; exact lt_irrefl h)

theorem lookupMap_insertMap :
    ∀ (m : List (String × List String)) (h p h' : String), sortedMap m →
      lookupMap (insertMap m h p) h'
        = if h' = h then lookupMap m h ++ [p] else lookupMap m h' := by
  intro m
  induction m with
  | nil =>
    intro h p h' _
    by_cases he : h' = h <;> simp [insertMap, lookupMap, he]
  | cons g rest ih =>
    intro h p h' hs
    obtain ⟨k, ps⟩ := g
    have hs' : sortedMap rest := by
      rw [sortedMap, List.pairwise_cons] at hs
      exact hs.2
    by_cases h1 : h < k
    · rw [show insertMap ((k, ps) :: rest) h p = (h, [p]) :: (k, ps) :: rest by
        simp [insertMap, h1]]
      by_cases he : h' = h
      · rw [if_pos he, lookupMap_head_lt hs h1, List.nil_append]
        simp [lookupMap, he]
      · rw [if_neg he]
        simp [lookupMap, he]
    · by_cases h2 : h = k
      · subst h2
        rw [show insertMap ((h, ps) :: rest) h p = (h, ps ++ [p]) :: rest by
          simp [insertMap, h1]]
        by_cases he : h' = h
        · simp [lookupMap, he]
        · simp [lookupMap, he]
      · rw [show insertMap ((k, ps) :: rest) h p = (k, ps) :: insertMap rest h p by
          simp [insertMap, h1, h2]]
        by_cases hk : h' = k
        · have hne : ¬ h' = h := by rw [hk]; exact fun e => h2 e.symm
          have hkh : ¬ k = h := fun e => h2 e.symm
          simp [lookupMap, hk, hne, hkh]
        · rw [show lookupMap ((k, ps) :: insertMap rest h p) h'
              = lookupMap (insertMap rest h p) h' by simp [lookupMap, hk],
            show lookupMap ((k, ps) :: rest) h = lookupMap rest h by simp [lookupMap, h2],
            show lookupMap ((k, ps) :: rest) h' = lookupMap rest h' by simp [lookupMap, hk]]
          exact ih h p h' hs'

theorem lookupMap_of_mem :
    ∀ (m : List (String × List String)) (g : String × List String),
      sortedMap m → g ∈ m → lookupMap m g.1 = g.2 := by
  intro m
  induction m with
  | nil => intro g _ hg; exact absurd hg (List.not_mem_nil g)
  | cons g' rest ih =>
    intro g hs hg
    obtain ⟨k, ps⟩ := g'
    rw [sortedMap, List.pairwise_cons] at hs
    rcases List.mem_cons.mp hg with rfl | hg
    · simp [lookupMap]
    · have hne : ¬ g.1 = k := by
        have := hs.1 g hg
        exact fun e => absurd this (by rw [e]; exact lt_irrefl k)
      simp only [lookupMap, if_neg hne]
      exact ih g hs.2 hg

theorem mem_of_lookupMap_ne_nil :
    ∀ (m : List (String × List String)) (h : String),
      lookupMap m h ≠ [] → (h, lookupMap m h) ∈ m := by
  intro m
  induction m with
  | nil => intro h hh; exact absurd rfl hh
  | cons g rest ih =>
    intro h hh
    obtain ⟨k, ps⟩ := g
    by_cases he : h = k
    · subst he
      simp only [lookupMap, if_pos rfl] at hh ⊢
      exact List.mem_cons_self _ _
    · simp only [lookupMap, if_neg he] at hh ⊢
      exact List.mem_cons_of_mem _ (ih h hh)

theorem pathsOfMap_insertMap :
    ∀ (m : List (String × List String)) (h p : String),
      (pathsOfMap (insertMap m h p)).Perm (p :: pathsOfMap m) := by
  intro m
  induction m with
  | nil => simp [insertMap, pathsOfMap]
  | cons g rest ih =>
    intro h p
    obtain ⟨k, ps⟩ := g
    by_cases h1 : h < k
    · simp only [insertMap, if_pos h1, pathsOfMap, List.map_cons, List.flatten_cons]
      exact List.Perm.refl _
    · by_cases h2 : h = k
      · simp only [insertMap, if_neg h1, if_pos h2, pathsOfMap, List.map_cons,
          List.flatten_cons]
        rw [List.append_assoc]
        exact List.perm_middle
      · simp only [insertMap, if_neg h1, if_neg h2, pathsOfMap, List.map_cons,
          List.flatten_cons]
        exact ((ih h p).append_left ps).trans List.perm_middle

/-! ### Lemmas: the scan fold -/

theorem scanStep_sorted {m : List (String × List String)} (e : FsEntry)
    (hs : sortedMap m) : sortedMap (scanStep m e) := by
  rw [scanStep]
  split_ifs with h1 h2
  · exact hs
  · exact insertMap_sorted m _ _ hs
  · exact hs

theorem foldl_scanStep_sorted :
    ∀ (entries : List FsEntry) (m : List (String × List String)),
      sortedMap m → sortedMap (entries.foldl scanStep m) := by
  intro entries
  induction entries with
  | nil => intro m hs; exact hs
  | cons e rest ih =>
    intro m hs
    rw [List.foldl_cons]
    exact ih _ (scanStep_sorted e hs)

theorem hashToPaths_sorted (entries : List FsEntry) : sortedMap (hashToPaths entries) :=
  foldl_scanStep_sorted entries [] (by simp [sortedMap])

theorem lookupMap_scanStep {m : List (String × List String)} (e : FsEntry) (h : String)
    (hs : sortedMap m) :
    lookupMap (scanStep m e) h
      = lookupMap m h ++ (if hashMatches h e then [e.path] else []) := by
  rw [scanStep, hashMatches]
  by_cases hr : e.isRegular
  · by_cases he : entryHash e = ""
    · simp [hr, he]
    · simp only [hr, if_true, if_neg he, lookupMap_insertMap m _ _ h hs]
      by_cases hh : h = entryHash e
      · have : (entryHash e == h) = true := by simp [hh.symm]
        simp [hh, he, this, hr]
      · have : (entryHash e == h) = false := by
          simp only [beq_eq_false_iff_ne, ne_eq]
          exact fun e' => hh e'.symm
        simp [hh, this]
  · simp [hr]

theorem lookupMap_foldl_scanStep :
    ∀ (entries : List FsEntry) (m : List (String × List String)) (h : String),
      sortedMap m →
      lookupMap (entries.foldl scanStep m) h
        = lookupMap m h ++ (entries.filter (hashMatches h)).map FsEntry.path := by
  intro entries
  induction entries with
  | nil => intro m h _; simp
  | cons e rest ih =>
    intro m h hs
    rw [List.foldl_cons, ih _ h (scanStep_sorted e hs), lookupMap_scanStep e h hs,
      List.filter_cons]
    by_cases hm : hashMatches h e
    · simp [hm, List.append_assoc]
    · simp [hm]

theorem lookupMap_hashToPaths (entries : List FsEntry) (h : String) :
    lookupMap (hashToPaths entries) h = (entries.filter (hashMatches h)).map FsEntry.path := by
  rw [hashToPaths, lookupMap_foldl_scanStep entries [] h (by simp [sortedMap])]
  rfl

theorem pathsOfMap_foldl_scanStep :
    ∀ (entries : List FsEntry) (m : List (String × List String)),
      (pathsOfMap (entries.foldl scanStep m)).Perm
        (pathsOfMap m ++ (entries.filter scanKept).map FsEntry.path) := by
  intro entries
  induction entries with
  | nil => intro m; simp
  | cons e rest ih =>
    intro m
    rw [List.foldl_cons, List.filter_cons]
    by_cases hk : scanKept e
    · have hstep : scanStep m e = insertMap m (entryHash e) e.path := by
        rw [scanKept] at hk
        simp only [Bool.and_eq_true, Bool.not_eq_true', beq_eq_false_iff_ne, ne_eq] at hk
        simp [scanStep, hk.1, hk.2]
      rw [hstep]
      refine (ih _).trans ?_
      rw [if_pos hk, List.map_cons]
      refine ((pathsOfMap_insertMap m _ _).append_right _).trans ?_
      exact List.perm_middle.symm
    · have hstep : scanStep m e = m := by
        rw [scanKept] at hk
        simp only [Bool.and_eq_true, Bool.not_eq_true', not_and] at hk
        by_cases hr : e.isRegular
        · have := hk hr
          simp only [beq_iff_eq] at this  -- entryHash e == "" is not false → = ""
          simp [scanStep, hr]
          intro hne
          exact absurd (by simpa using this) hne
        · simp [scanStep, hr]
      rw [hstep, if_neg hk]
      exact ih m

theorem nodup_pathsOfMap {entries : List FsEntry}
    (hnd : (entries.map FsEntry.path).Nodup) :
    (pathsOfMap (hashToPaths entries)).Nodup := by
  have hperm := pathsOfMap_foldl_scanStep entries []
  have hperm' : (pathsOfMap (hashToPaths entries)).Perm
      ((entries.filter scanKept).map FsEntry.path) := by
    simpa [pathsOfMap, hashToPaths] using hperm
  have hsub : ((entries.filter scanKept).map FsEntry.path).Sublist
      (entries.map FsEntry.path) := (List.filter_sublist entries).map _
  exact hperm'.nodup_iff.mpr (hnd.sublist hsub)

/-! ### Lemmas: phase 2 accumulation -/

theorem pathsOfMap_cons (g : String × List String) (rest : List (String × List String)) :
    pathsOfMap (g :: rest) = g.2 ++ pathsOfMap rest := by
  simp [pathsOfMap]

theorem dupsList_cons (g : String × List String) (rest : List (String × List String)) :
    dupsList (g :: rest)
      = (if 1 < g.2.length then g.2.drop 1 else []) ++ dupsList rest := by
  simp [dupsList]

theorem mem_dupsList :
    ∀ (m : List (String × List String)) (x : String), x ∈ dupsList m → x ∈ pathsOfMap m := by
  intro m
  induction m with
  | nil => intro x hx; simp [dupsList] at hx
  | cons g rest ih =>
    intro x hx
    rw [dupsList_cons] at hx
    rw [pathsOfMap_cons, List.mem_append]
    rcases List.mem_append.mp hx with hx | hx
    · left
      by_cases hl : 1 < g.2.length
      · rw [if_pos hl] at hx
        exact List.drop_subset 1 g.2 hx
      · rw [if_neg hl] at hx
        exact absurd hx (List.not_mem_nil x)
    · right
      exact ih x hx

theorem count_dupsList :
    ∀ (m : List (String × List String)) (g : String × List String) (p : String),
      (pathsOfMap m).Nodup → g ∈ m → p ∈ g.2 →
      (dupsList m).count p = if 1 < g.2.length then (g.2.drop 1).count p else 0 := by
  intro m
  induction m with
  | nil => intro g p _ hg; exact absurd hg (List.not_mem_nil g)
  | cons g' rest ih =>
    intro g p hnd hg hp
    rw [pathsOfMap_cons, List.nodup_append] at hnd
    obtain ⟨hnd1, hnd2, hdisj⟩ := hnd
    rw [dupsList_cons, List.count_append]
    rcases List.mem_cons.mp hg with rfl | hg
    · have hzero : (dupsList rest).count p = 0 := by
        rw [List.count_eq_zero]
        intro hmem
        exact hdisj hp (mem_dupsList rest p hmem)
      rw [hzero]
      by_cases hl : 1 < g.2.length
      · simp [hl]
      · simp [hl]
    · have hpm : p ∈ pathsOfMap rest := by
        simp only [pathsOfMap, List.mem_flatten]
        exact ⟨g.2, List.mem_map_of_mem Prod.snd hg, hp⟩
      have hzero : (if 1 < g'.2.length then g'.2.drop 1 else []).count p = 0 := by
        rw [List.count_eq_zero]
        intro hmem
        by_cases hl : 1 < g'.2.length
        · rw [if_pos hl] at hmem
          exact hdisj (List.drop_subset 1 g'.2 hmem) hpm
        · rw [if_neg hl] at hmem
          exact absurd hmem (List.not_mem_nil p)
      rw [hzero, Nat.zero_add]
      exact ih g p hnd2 hg hp

theorem foldl_dupStep (sz : String → Option Nat) :
    ∀ (l : List String) (a : Report),
      l.foldl (dupStep sz) a
        = ⟨a.files ++ l, a.total + (l.filterMap sz).sum,
           a.warnings ++ l.filter (fun p => (sz p).isNone), a.groups⟩ := by
  intro l
  induction l with
  | nil => intro a; simp
  | cons p l ih =>
    intro a
    rw [List.foldl_cons, ih]
    cases hsz : sz p with
    | some s =>
      simp [dupStep, hsz, List.filterMap_cons, List.filter_cons, Nat.add_assoc]
    | none =>
      simp [dupStep, hsz, List.filterMap_cons, List.filter_cons]

theorem foldl_groupStep (sz : String → Option Nat) :
    ∀ (m : List (String × List String)) (a : Report),
      m.foldl (groupStep sz) a
        = ⟨a.files ++ dupsList m, a.total + ((dupsList m).filterMap sz).sum,
           a.warnings ++ (dupsList m).filter (fun p => (sz p).isNone),
           a.groups ++ m.filter isDupGroup⟩ := by
  intro m
  induction m with
  | nil => intro a; simp [dupsList]
  | cons g rest ih =>
    intro a
    rw [List.foldl_cons]
    by_cases hl : 1 < g.2.length
    · rw [show groupStep sz a g
          = (g.2.drop 1).foldl (dupStep sz) ⟨a.files, a.total, a.warnings, a.groups ++ [g]⟩ by
        simp [groupStep, hl], foldl_dupStep, ih]
      rw [dupsList_cons, if_pos hl]
      simp [List.filter_cons, isDupGroup, hl, List.filterMap_append, List.filter_append,
        List.append_assoc, Nat.add_assoc]
    · rw [show groupStep sz a g = a by simp [groupStep, hl], ih]
      rw [dupsList_cons, if_neg hl]
      simp [List.filter_cons, isDupGroup, hl]

theorem reportPhase_eq (m : List (String × List String)) (sz : String → Option Nat) :
    reportPhase m sz
      = ⟨dupsList m, ((dupsList m).filterMap sz).sum,
         (dupsList m).filter (fun p => (sz p).isNone), m.filter isDupGroup⟩ := by
  rw [reportPhase, foldl_groupStep]
  simp

theorem dupsList_eq_flatMap_filter (m : List (String × List String)) :
    dupsList m = (m.filter isDupGroup).flatMap (fun g => g.2.drop 1) := by
  induction m with
  | nil => rfl
  | cons g rest ih =>
    rw [dupsList_cons, List.filter_cons]
    by_cases hl : 1 < g.2.length
    · rw [if_pos hl, show isDupGroup g = true by simp [isDupGroup, hl],
        if_pos rfl, List.flatMap_cons, ih]
    · rw [if_neg hl, show isDupGroup g = false by simp [isDupGroup, hl]]
      simp [ih]

/-! ### Lemmas: batch deletion -/

theorem foldl_deleteStep (rm : String → RemoveOutcome) :
    ∀ (l : List String) (c : Nat),
      l.foldl (deleteStep rm) c = c + (l.filter (removeOk rm)).length := by
  intro l
  induction l with
  | nil => intro c; simp
  | cons p l ih =>
    intro c
    rw [List.foldl_cons, List.filter_cons]
    cases hrm : rm p with
    | error => simp [deleteStep, hrm, removeOk, ih]
    | removed => simp [deleteStep, hrm, removeOk, ih c.succ]; omega
    | notExisted => simp [deleteStep, hrm, removeOk, ih c.succ]; omega

theorem batchDeleteCount_eq (files : List String) (rm : String → RemoveOutcome) :
    batchDeleteCount files rm = (files.filter (removeOk rm)).length := by
  rw [batchDeleteCount, foldl_deleteStep, Nat.zero_add]

/-! ### Lemmas: per-group counting in the deletion list -/

theorem nodup_group {m : List (String × List String)} {g : String × List String}
    (hnd : (pathsOfMap m).Nodup) (hg : g ∈ m) : g.2.Nodup := by
  rw [pathsOfMap] at hnd
  exact (List.nodup_flatten.mp hnd).1 g.2 (List.mem_map_of_mem Prod.snd hg)

/-- Core counting facts shared by the keeper-invariant and empty-file
claims: within any group of the (duplicate-path-free) map, the first
member never appears in `filesToDelete`, every later member of a
reported group appears exactly once, and members of singleton groups
never appear. -/
theorem group_count_core (m : List (String × List String)) (sz : String → Option Nat)
    (g : String × List String) (hnd : (pathsOfMap m).Nodup) (hg : g ∈ m) :
    (∀ k, g.2.head? = some k → (reportPhase m sz).files.count k = 0)
    ∧ (1 < g.2.length → ∀ p ∈ g.2.drop 1, (reportPhase m sz).files.count p = 1)
    ∧ (g.2.length = 1 → ∀ p ∈ g.2, (reportPhase m sz).files.count p = 0) := by
  have hfiles : (reportPhase m sz).files = dupsList m := by rw [reportPhase_eq]
  have hgnodup : g.2.Nodup := nodup_group hnd hg
  refine ⟨?_, ?_, ?_⟩
  · intro k hk
    cases hE : g.2 with
    | nil => rw [hE] at hk; simp at hk
    | cons a t =>
      rw [hE] at hk
      simp only [List.head?_cons, Option.some.injEq] at hk
      subst hk
      rw [hfiles, count_dupsList m g a hnd hg (by rw [hE]; exact List.mem_cons_self a t)]
      by_cases hl : 1 < g.2.length
      · rw [if_pos hl, hE]
        simp only [List.drop_succ_cons, List.drop_zero]
        rw [List.count_eq_zero]
        rw [hE] at hgnodup
        exact (List.nodup_cons.mp hgnodup).1
      · rw [if_neg hl]
  · intro hl p hp
    rw [hfiles, count_dupsList m g p hnd hg (List.drop_subset 1 g.2 hp), if_pos hl]
    exact List.count_eq_one_of_mem (hgnodup.sublist (List.drop_sublist 1 g.2)) hp
  · intro hl p hp
    rw [hfiles, count_dupsList m g p hnd hg hp, if_neg (by omega)]

/-! ### Claim theorems -/

/-- C5: the chunked hashing of `calculateFileHash` (128 KiB reads, with
the short final read folded in after the loop) produces the same digest
as hashing the entire content in one contiguous `add`; in particular a
131073-byte stream (one full 131072-byte chunk plus one byte) hashes to
the same digest as the contiguous hash of its content. -/
theorem chunked_hash_eq :
    (∀ content : List Nat, calculateFileHash true content false = sha256hex content)
    ∧ calculateFileHash true (List.replicate 131073 0) false
        = sha256hex (List.replicate 131073 0) := by
  have h : ∀ content : List Nat,
      calculateFileHash true content false = sha256hex content := by
    intro content
    show (if true then if false then "" else getHash (readLoop initState content) else "")
      = sha256hex content
    rw [if_pos rfl, if_neg (by simp), readLoop_eq_add]
    rfl
  exact ⟨h, h _⟩

/-- C7: `formatSize` maps 1023 bytes to "1023 Bytes", 1024 to "1.00 KB",
1048576 to "1.00 MB" and 1073741824 to "1.00 GB"; and for every byte
count below 1024 it prints the raw byte count (a pure digit string that
decodes back to the byte count, with no decimal point) followed by
" Bytes". -/
theorem formatSize_boundaries :
    formatSize 1023 = "1023 Bytes"
    ∧ formatSize 1024 = "1.00 KB"
    ∧ formatSize 1048576 = "1.00 MB"
    ∧ formatSize 1073741824 = "1.00 GB"
    ∧ ∀ bytes : Nat, bytes < 1024 →
        formatSize bytes = String.mk (natDigits bytes) ++ " Bytes"
        ∧ decodeDigits (natDigits bytes) = bytes
        ∧ '.' ∉ natDigits bytes := by
  refine ⟨by decide, by decide, by decide, by decide, ?_⟩
  intro bytes hb
  refine ⟨?_, decodeDigits_natDigits bytes, natDigits_no_dot⟩
  rw [formatSize, if_neg (by simp only [GB, MB, KB]; omega),
    if_neg (by simp only [MB, KB]; omega), if_neg (by simp only [KB]; omega)]

/-- C7 witness at 500 bytes. -/
theorem formatSize_boundaries_witness :
    formatSize 500 = String.mk (natDigits 500) ++ " Bytes"
    ∧ decodeDigits (natDigits 500) = 500
    ∧ '.' ∉ natDigits 500 :=
  formatSize_boundaries.2.2.2.2 500 (by decide)

/-- C6 counterexample: at 2147483647 bytes the GB-scaled value lies in
[1.99, 2), so truncating it to three significant digits must display
"1.99", yet `formatSize` prints "2.00 GB" — `std::to_string` rounds at
the sixth decimal and the carry reaches the printed digits.  At
1048575 bytes the output "1023 KB" displays four significant digits.
The final conjunct exercises the integer-to-double rounding: the valid
64-bit count 8600000000·2³⁰ − 900 is 900 below a multiple of the
2048-byte double ulp, the conversion rounds it up, and the program
prints "8600 GB" rather than the "8599 GB" an exact scaling would
give. -/
theorem formatSize_not_truncated_cex :
    formatSize 2147483647 = "2.00 GB"
    ∧ (2147483647 : ℚ) / 1073741824 < 2
    ∧ (199 : ℚ) / 100 ≤ (2147483647 : ℚ) / 1073741824
    ∧ formatSize 1048575 = "1023 KB"
    ∧ 9234179686399999100 = 8600000000 * 2 ^ 30 - 900
    ∧ formatSize 9234179686399999100 = "8600 GB" :=
  ⟨by decide, by norm_num, by norm_num, by decide, by norm_num, by decide⟩

/-- C6 (amended): for every byte count at or above 1024, `formatSize`
selects the unit by 1024-based thresholds (KB, MB, GB) and renders as
the numeric field the first four characters of the scaled value —
where the byte count is first rounded to the nearest `double` (exact
below `2^53`) and the six-decimal rendering rounds (ties to even) at
the sixth decimal place — not a truncation to three significant
digits: the four characters contain exactly three digits when the
rounded scaled value is below 1000, and four digits otherwise
(reachable since the thresholds are 1024-based). -/
theorem formatSize_fourchar (bytes : Nat) (h : KB ≤ bytes) :
    ∃ (p : List Char) (u : String) (d : Nat),
      formatSize bytes = String.mk p ++ u
      ∧ p = (sixDecChars (scaled6 bytes d)).take 4
      ∧ ((GB ≤ bytes ∧ u = " GB" ∧ d = GB)
         ∨ (MB ≤ bytes ∧ bytes < GB ∧ u = " MB" ∧ d = MB)
         ∨ (KB ≤ bytes ∧ bytes < MB ∧ u = " KB" ∧ d = KB))
      ∧ p.length = 4
      ∧ (p.filter (fun c => c.isDigit)).length
          = if scaled6 bytes d / 1000000 < 1000 then 3 else 4 := by
  by_cases hG : GB ≤ bytes
  · exact ⟨(sixDecChars (scaled6 bytes GB)).take 4, " GB", GB,
      by rw [formatSize, if_pos hG], rfl, Or.inl ⟨hG, rfl, rfl⟩,
      (sixDec_take4 _).1, (sixDec_take4 _).2⟩
  · by_cases hM : MB ≤ bytes
    · exact ⟨(sixDecChars (scaled6 bytes MB)).take 4, " MB", MB,
        by rw [formatSize, if_neg hG, if_pos hM], rfl,
        Or.inr (Or.inl ⟨hM, not_le.mp hG, rfl, rfl⟩),
        (sixDec_take4 _).1, (sixDec_take4 _).2⟩
    · exact ⟨(sixDecChars (scaled6 bytes KB)).take 4, " KB", KB,
        by rw [formatSize, if_neg hG, if_neg hM, if_pos h], rfl,
        Or.inr (Or.inr ⟨h, not_le.mp hM, rfl, rfl⟩),
        (sixDec_take4 _).1, (sixDec_take4 _).2⟩

/-- C6 witness at 1500 bytes ("1.46 KB"). -/
theorem formatSize_fourchar_witness :
    KB ≤ 1500
    ∧ ∃ (p : List Char) (u : String) (d : Nat),
        formatSize 1500 = String.mk p ++ u
        ∧ p = (sixDecChars (scaled6 1500 d)).take 4
        ∧ ((GB ≤ 1500 ∧ u = " GB" ∧ d = GB)
           ∨ (MB ≤ 1500 ∧ 1500 < GB ∧ u = " MB" ∧ d = MB)
           ∨ (KB ≤ 1500 ∧ 1500 < MB ∧ u = " KB" ∧ d = KB))
        ∧ p.length = 4
        ∧ (p.filter (fun c => c.isDigit)).length
            = if scaled6 1500 d / 1000000 < 1000 then 3 else 4 :=
  ⟨by decide, formatSize_fourchar 1500 (by decide)⟩

/-- C2: with a populated deletion list, the batch runs exactly when the
response token is a single character 'Y' or 'y'; on any other response
no removal is attempted, no file is deleted, no tally is printed, and
the untouched-files count is reported. -/
theorem confirmation_gating (files : List String) (r : String)
    (rm : String → RemoveOutcome) (_hne : files ≠ []) :
    (confirmed r = true ↔ ∃ c, r.data = [c] ∧ (c = 'Y' ∨ c = 'y'))
    ∧ (confirmed r = true →
        attemptedRemovals files r = files ∧ untouchedReport files r = none)
    ∧ (confirmed r = false →
        attemptedRemovals files r = []
        ∧ finalTally files r rm = none
        ∧ actuallyRemoved (attemptedRemovals files r) rm = 0
        ∧ untouchedReport files r = some files.length) := by
  refine ⟨?_, ?_, ?_⟩
  · rcases hd : r.data with _ | ⟨c, _ | ⟨c2, t⟩⟩ <;> simp [confirmed, hd]
  · intro hc
    rw [attemptedRemovals, if_pos hc, untouchedReport, if_pos hc]
    exact ⟨rfl, rfl⟩
  · intro hc
    have hc' : ¬ (confirmed r = true) := by simp [hc]
    rw [attemptedRemovals, if_neg hc', finalTally, if_neg hc', untouchedReport, if_neg hc']
    exact ⟨rfl, rfl, rfl, rfl⟩

/-- C2 witness: response "n" leaves one listed file untouched, response
"y" attempts the whole list. -/
theorem confirmation_gating_witness :
    (attemptedRemovals ["a"] "n" = []
      ∧ finalTally ["a"] "n" (fun _ => RemoveOutcome.removed) = none
      ∧ actuallyRemoved (attemptedRemovals ["a"] "n") (fun _ => RemoveOutcome.removed) = 0
      ∧ untouchedReport ["a"] "n" = some ["a"].length)
    ∧ (attemptedRemovals ["a"] "y" = ["a"] ∧ untouchedReport ["a"] "y" = none) :=
  ⟨(confirmation_gating ["a"] "n" (fun _ => RemoveOutcome.removed) (by decide)).2.2 (by decide),
   (confirmation_gating ["a"] "y" (fun _ => RemoveOutcome.removed) (by decide)).2.1 (by decide)⟩

/-- C3 counterexample: with deletion list ["a"] where the file has
already vanished before the batch runs, `fs::remove` returns `false`
without throwing, nothing is removed from the filesystem, yet the
printed tally claims 1 successful deletion. -/
theorem tally_overcount_cex :
    finalTally ["a"] "y" (fun _ => RemoveOutcome.notExisted) = some 1
    ∧ actuallyRemoved (attemptedRemovals ["a"] "y") (fun _ => RemoveOutcome.notExisted) = 0 :=
  ⟨by decide, by decide⟩

/-- C3 (amended): during the confirmed batch, a removal is attempted
for every file in the list even when earlier removals failed, and the
printed tally equals the number of `fs::remove` calls that completed
without throwing — which counts a call on an already-missing file
(`remove` returns `false`, no exception) as a success, so the tally is
only an upper bound on the number of files actually removed. -/
theorem tally_counts_nonerror (files : List String) (r : String)
    (rm : String → RemoveOutcome) (hc : confirmed r = true) :
    attemptedRemovals files r = files
    ∧ finalTally files r rm = some ((files.filter (removeOk rm)).length)
    ∧ actuallyRemoved files rm ≤ (files.filter (removeOk rm)).length := by
  refine ⟨by rw [attemptedRemovals, if_pos hc], ?_, ?_⟩
  · rw [finalTally, if_pos hc, batchDeleteCount_eq]
  · rw [actuallyRemoved, ← List.countP_eq_length_filter, ← List.countP_eq_length_filter]
    refine List.countP_mono_left ?_
    intro x _ hx
    cases hrm : rm x with
    | removed => simp [removeOk, hrm]
    | notExisted => rw [hrm] at hx; simp [isRemoved] at hx
    | error => rw [hrm] at hx; simp [isRemoved] at hx

/-- C3 witness: "a" fails with an error, "b" is still attempted and
removed; the tally is 1. -/
theorem tally_counts_nonerror_witness :
    attemptedRemovals ["a", "b"] "Y" = ["a", "b"]
    ∧ finalTally ["a", "b"] "Y"
        (fun p => if p = "a" then RemoveOutcome.error else RemoveOutcome.removed)
      = some ((["a", "b"].filter (removeOk
          (fun p => if p = "a" then RemoveOutcome.error else RemoveOutcome.removed))).length)
    ∧ actuallyRemoved ["a", "b"]
        (fun p => if p = "a" then RemoveOutcome.error else RemoveOutcome.removed)
      ≤ (["a", "b"].filter (removeOk
          (fun p => if p = "a" then RemoveOutcome.error else RemoveOutcome.removed))).length :=
  tally_counts_nonerror ["a", "b"] "Y"
    (fun p => if p = "a" then RemoveOutcome.error else RemoveOutcome.removed) (by decide)

/-- C8: with a single argument naming an existing directory the exit
code is 0, and a run whose recursive scan aborts early with a reported
filesystem traversal error produces the same exit code as any other
run — the abort is invisible in the exit status. -/
theorem exit_code_zero (argCount : Nat) (pathExists isDir : Bool)
    (scanRes : Except String (List FsEntry)) (sz : String → Option Nat) (resp : String)
    (rm : String → RemoveOutcome)
    (h1 : argCount = 2) (h2 : pathExists = true) (h3 : isDir = true) :
    (runProgram argCount pathExists isDir scanRes sz resp rm).1 = 0
    ∧ ∀ e : String,
        (runProgram argCount pathExists isDir (Except.error e) sz resp rm).1
          = (runProgram argCount pathExists isDir scanRes sz resp rm).1 := by
  subst h1 h2 h3
  refine ⟨by simp [runProgram], ?_⟩
  intro e
  simp [runProgram]

/-- C1: in the scan of a traversal yielding pairwise-distinct paths,
every group of the hash map with two or more paths keeps its
first-discovered path out of the deletion list while every other member
enters it exactly once; a digest mapped to exactly one path contributes
nothing to the report or the deletion list. -/
theorem keeper_invariant (entries : List FsEntry) (sz : String → Option Nat)
    (hnd : (entries.map FsEntry.path).Nodup) :
    ∀ g ∈ hashToPaths entries,
      (2 ≤ g.2.length →
        (∀ k, g.2.head? = some k →
          (reportPhase (hashToPaths entries) sz).files.count k = 0)
        ∧ ∀ p ∈ g.2.drop 1, (reportPhase (hashToPaths entries) sz).files.count p = 1)
      ∧ (g.2.length = 1 →
        (∀ p ∈ g.2, (reportPhase (hashToPaths entries) sz).files.count p = 0)
        ∧ g ∉ (reportPhase (hashToPaths entries) sz).groups) := by
  intro g hg
  have hnd' := nodup_pathsOfMap hnd
  have core := group_count_core (hashToPaths entries) sz g hnd' hg
  refine ⟨fun h2 => ⟨core.1, core.2.1 (by omega)⟩, fun h1 => ⟨core.2.2 h1, ?_⟩⟩
  intro hmem
  rw [reportPhase_eq] at hmem
  have hdup := (List.mem_filter.mp hmem).2
  rw [isDupGroup] at hdup
  simp only [decide_eq_true_eq] at hdup
  omega

/-- Concrete scan used by the witnesses: two regular empty files "a"
and "b", both hashed successfully. -/
def W1 : List FsEntry :=
  [⟨"a", true, true, [], false⟩, ⟨"b", true, true, [], false⟩]

/-- Size oracle used by the witnesses: every size query fails. -/
def szW : String → Option Nat := fun _ => none

/-- C1 witness: in the two-empty-file scan the keeper "a" is never
scheduled and the duplicate "b" is scheduled exactly once. -/
theorem keeper_invariant_witness :
    (reportPhase (hashToPaths W1) szW).files.count "a" = 0
    ∧ (reportPhase (hashToPaths W1) szW).files.count "b" = 1 := by
  have hlook : lookupMap (hashToPaths W1) (sha256hex []) = ["a", "b"] := by
    rw [lookupMap_hashToPaths]
    decide
  have hmem : (sha256hex [], ["a", "b"]) ∈ hashToPaths W1 := by
    have h := mem_of_lookupMap_ne_nil (hashToPaths W1) (sha256hex [])
      (by rw [hlook]; decide)
    rw [hlook] at h
    exact h
  have h := keeper_invariant W1 szW (by decide) (sha256hex [], ["a", "b"]) hmem
  exact ⟨(h.1 (by decide)).1 "a" rfl, (h.1 (by decide)).2 "b" (by decide)⟩

/-- C4: the reported reclaimable total always equals the sum of the
successfully measured sizes of the scheduled duplicates (failed queries
contribute 0), the warning list is exactly the scheduled duplicates
whose size query failed, and a non-keeper member of a duplicate group
whose size query fails is both warned about and still scheduled for
deletion. -/
theorem size_warning_total (m : List (String × List String)) (sz : String → Option Nat) :
    (reportPhase m sz).total = (((reportPhase m sz).files).filterMap sz).sum
    ∧ (reportPhase m sz).warnings
        = ((reportPhase m sz).files).filter (fun p => (sz p).isNone)
    ∧ ∀ g ∈ m, 1 < g.2.length → ∀ p ∈ g.2.drop 1,
        p ∈ (reportPhase m sz).files
        ∧ (sz p = none → p ∈ (reportPhase m sz).warnings) := by
  rw [reportPhase_eq]
  refine ⟨rfl, rfl, ?_⟩
  intro g hg hl p hp
  have hmem : p ∈ dupsList m := by
    rw [dupsList, List.mem_flatMap]
    exact ⟨g, hg, by rw [if_pos hl]; exact hp⟩
  exact ⟨hmem, fun hnone => List.mem_filter.mpr ⟨hmem, by rw [hnone]; rfl⟩⟩

/-- C4 witness: in group ("h", ["a","b","c"]) with the size query
failing on "b" and measuring "c" at 5 bytes, "b" is scheduled and
warned about, and the displayed total is 5. -/
theorem size_warning_total_witness :
    ("b" ∈ (reportPhase [("h", ["a", "b", "c"])]
        (fun p => if p = "b" then none else some 5)).files
      ∧ "b" ∈ (reportPhase [("h", ["a", "b", "c"])]
        (fun p => if p = "b" then none else some 5)).warnings)
    ∧ (reportPhase [("h", ["a", "b", "c"])]
        (fun p => if p = "b" then none else some 5)).total = 5 := by
  have h := (size_warning_total [("h", ["a", "b", "c"])]
    (fun p => if p = "b" then none else some 5)).2.2
    ("h", ["a", "b", "c"]) (by decide) (by decide) "b" (by decide)
  exact ⟨⟨h.1, h.2 (by decide)⟩, by decide⟩

/-- C9: a zero-byte stream that opens cleanly hashes to the non-empty
SHA-256 digest of the empty byte string (the well-known constant
e3b0c442…), not the error sentinel; consequently, in any scan over
distinct paths in which only the successfully-read empty regular files
carry that digest, two or more discovered empty files form one
duplicate group whose first-discovered member is kept and whose other
members are each nominated for deletion exactly once. -/
theorem empty_files_grouped :
    calculateFileHash true [] false = sha256hex []
    ∧ sha256hex []
        = "e3b0c44298fc1c149afbf4c8996fb92427ae41e4649b934ca495991b7852b855"
    ∧ sha256hex [] ≠ ""
    ∧ ∀ (entries : List FsEntry) (sz : String → Option Nat),
        (entries.map FsEntry.path).Nodup →
        (∀ e ∈ entries, e.isRegular = true → entryHash e = sha256hex [] →
          e.openOk = true ∧ e.readBad = false ∧ e.content = []) →
        2 ≤ (emptyRegFiles entries).length →
        lookupMap (hashToPaths entries) (sha256hex []) = emptyRegFiles entries
        ∧ (sha256hex [], emptyRegFiles entries)
            ∈ (reportPhase (hashToPaths entries) sz).groups
        ∧ (∀ k, (emptyRegFiles entries).head? = some k →
            (reportPhase (hashToPaths entries) sz).files.count k = 0)
        ∧ ∀ p ∈ (emptyRegFiles entries).drop 1,
            (reportPhase (hashToPaths entries) sz).files.count p = 1 := by
  have hone : calculateFileHash true [] false = sha256hex [] := by
    show (if true then if false then "" else getHash (readLoop initState []) else "")
      = sha256hex []
    rw [if_pos rfl, if_neg (by simp), readLoop_eq_add]
    rfl
  have hne : sha256hex [] ≠ "" := by decide
  refine ⟨hone, by decide, hne, ?_⟩
  intro entries sz hnd hcoll hlen
  have hmatch : ∀ e ∈ entries,
      hashMatches (sha256hex []) e
        = (e.isRegular && e.openOk && !e.readBad && e.content.isEmpty) := by
    intro e he
    by_cases hr : e.isRegular = true
    · by_cases hok : e.openOk = true ∧ e.readBad = false ∧ e.content = []
      · obtain ⟨h1, h2, h3⟩ := hok
        have hh : entryHash e = sha256hex [] := by
          rw [entryHash, h1, h2, h3, hone]
        simp [hashMatches, hr, h1, h2, h3, hh, hne]
      · have hh : ¬ entryHash e = sha256hex [] := fun hc => hok (hcoll e he hr hc)
        have hlhs : hashMatches (sha256hex []) e = false := by
          simp only [hashMatches, Bool.and_eq_false_iff]
          right
          simp [beq_eq_false_iff_ne]
          exact hh
        rw [hlhs]
        by_cases h1 : e.openOk = true
        · by_cases h2 : e.readBad = false
          · have h3 : ¬ e.content = [] := fun hc => hok ⟨h1, h2, hc⟩
            have : e.content.isEmpty = false := by
              rw [List.isEmpty_eq_false_iff_exists_mem]
              cases hc : e.content with
              | nil => exact absurd hc h3
              | cons x t => exact ⟨x, List.mem_cons_self x t⟩
            simp [this]
          · have : e.readBad = true := by simpa using h2
            simp [this]
        · have : e.openOk = false := by simpa using h1
          simp [this]
    · have : e.isRegular = false := by simpa using hr
      simp [hashMatches, this]
  have hlook : lookupMap (hashToPaths entries) (sha256hex []) = emptyRegFiles entries := by
    rw [lookupMap_hashToPaths, List.filter_congr hmatch]
    rfl
  have hEne : emptyRegFiles entries ≠ [] := by
    intro hE
    rw [hE] at hlen
    simp at hlen
  have hmem : (sha256hex [], emptyRegFiles entries) ∈ hashToPaths entries := by
    have := mem_of_lookupMap_ne_nil (hashToPaths entries) (sha256hex [])
      (by rw [hlook]; exact hEne)
    rw [hlook] at this
    exact this
  have hnd' := nodup_pathsOfMap hnd
  have core := group_count_core (hashToPaths entries) sz
    (sha256hex [], emptyRegFiles entries) hnd' hmem
  refine ⟨hlook, ?_, core.1, core.2.1 (by simpa using (by omega : 1 < (emptyRegFiles entries).length))⟩
  rw [reportPhase_eq]
  refine List.mem_filter.mpr ⟨hmem, ?_⟩
  rw [isDupGroup]
  simp only [decide_eq_true_eq]
  omega

/-- C9 witness: the two-file scan `W1` (both empty) groups "a" and "b"
under the empty digest, keeps "a" and nominates "b" once. -/
theorem empty_files_grouped_witness :
    lookupMap (hashToPaths W1) (sha256hex []) = emptyRegFiles W1
    ∧ (sha256hex [], emptyRegFiles W1) ∈ (reportPhase (hashToPaths W1) szW).groups
    ∧ (reportPhase (hashToPaths W1) szW).files.count "b" = 1 := by
  have h := empty_files_grouped.2.2.2 W1 szW (by decide)
    (fun e he _ _ => by
      rcases List.mem_cons.mp he with rfl | he
      · exact ⟨rfl, rfl, rfl⟩
      · rcases List.mem_cons.mp he with rfl | he
        · exact ⟨rfl, rfl, rfl⟩
        · exact absurd he (List.not_mem_nil e))
    (by decide)
  exact ⟨h.1, h.2.1, h.2.2.2 "b" (by decide)⟩

/-- C10: duplicate groups are reported — and their non-keeper members
appended to the deletion list — in strictly ascending lexicographic
order of their digest strings, for every traversal order; within each
group the members are exactly the discovery-ordered paths whose hash
matches the group digest. -/
theorem groups_sorted_by_digest (entries : List FsEntry) (sz : String → Option Nat) :
    ((reportPhase (hashToPaths entries) sz).groups).Pairwise (fun a b => a.1 < b.1)
    ∧ (reportPhase (hashToPaths entries) sz).files
        = ((reportPhase (hashToPaths entries) sz).groups).flatMap (fun g => g.2.drop 1)
    ∧ ∀ g ∈ (reportPhase (hashToPaths entries) sz).groups,
        1 < g.2.length
        ∧ g.2 = (entries.filter (hashMatches g.1)).map FsEntry.path := by
  have hsorted := hashToPaths_sorted entries
  have hgroups : (reportPhase (hashToPaths entries) sz).groups
      = (hashToPaths entries).filter isDupGroup := by rw [reportPhase_eq]
  have hfiles : (reportPhase (hashToPaths entries) sz).files
      = dupsList (hashToPaths entries) := by rw [reportPhase_eq]
  refine ⟨?_, ?_, ?_⟩
  · rw [hgroups]
    exact List.Pairwise.sublist (List.filter_sublist _) hsorted
  · rw [hgroups, hfiles]
    exact dupsList_eq_flatMap_filter _
  · intro g hg
    rw [hgroups] at hg
    have hmem := (List.mem_filter.mp hg).1
    have hdup := (List.mem_filter.mp hg).2
    constructor
    · rw [isDupGroup] at hdup
      simpa using hdup
    · rw [← lookupMap_of_mem _ g hsorted hmem, lookupMap_hashToPaths]

/-- C10 witness: in the two-empty-file scan the reported group has two
members listed in discovery order. -/
theorem groups_sorted_by_digest_witness :
    1 < (sha256hex [], ["a", "b"]).2.length
    ∧ (sha256hex [], ["a", "b"]).2
        = (W1.filter (hashMatches (sha256hex [], ["a", "b"]).1)).map FsEntry.path := by
  have hlook : lookupMap (hashToPaths W1) (sha256hex []) = ["a", "b"] := by
    rw [lookupMap_hashToPaths]
    decide
  have hmem : (sha256hex [], ["a", "b"]) ∈ hashToPaths W1 := by
    have h := mem_of_lookupMap_ne_nil (hashToPaths W1) (sha256hex [])
      (by rw [hlook]; decide)
    rw [hlook] at h
    exact h
  have hg : (sha256hex [], ["a", "b"]) ∈ (reportPhase (hashToPaths W1) szW).groups := by
    rw [reportPhase_eq]
    exact List.mem_filter.mpr ⟨hmem, by decide⟩
  exact (groups_sorted_by_digest W1 szW).2.2 (sha256hex [], ["a", "b"]) hg

/-- C8 witness: an aborted scan still exits 0. -/
theorem exit_code_zero_witness :
    (runProgram 2 true true (Except.error "boom") (fun _ => none) "y"
      (fun _ => RemoveOutcome.removed)).1 = 0 :=
  (exit_code_zero 2 true true (Except.error "boom") (fun _ => none) "y"
    (fun _ => RemoveOutcome.removed) rfl rfl rfl).1

end Dupless
